import Mathlib

/-!
Verification of the per-node strategy-registration and resharding-cost core of
`colossalai/auto_parallel/tensor_shard/node_handler/node_handler.py`.

The Python code is shallowly embedded: the mutable `self.strategies_vector`
becomes explicit state passing, exceptions become `Except PlanErr`, the
`ShapeConsistencyManager` oracle becomes an abstract function parameter, and
`torch` objects are reduced to the metadata the code inspects (tensor shapes).
-/

set_option autoImplicit false

namespace NodeHandlerModel

/-- A resharding-cost triple as stored on strategies
(`TrainCycleItem(fwd=..., bwd=..., total=...)`). Costs are modelled as
integers so that negative oracle outputs are representable. -/
structure TrainCycleItem where
  fwd : Int
  bwd : Int
  total : Int
deriving Repr, DecidableEq

/-- The dictionary returned by `ShapeConsistencyManager.shape_consistency`
(third component of its result tuple): keys "forward", "backward", "total". -/
structure CostDict where
  forward : Int
  backward : Int
  total : Int
deriving Repr, DecidableEq

/-- A sharding spec (partition layout): the device-mesh shape it refers to and
a mapping from tensor-dimension index to the list of mesh axes sharding it. -/
structure ShardingSpec where
  meshShape : List Nat
  dimPartition : List (Nat × List Nat)
deriving Repr, DecidableEq

/-- The oracle collaborator: given the predecessor's sharding spec and the
current node's sharding spec, return the cost dictionary. -/
def Oracle : Type := ShardingSpec → ShardingSpec → CostDict

/-- The payload attached to an `OperationData`: in the Python code
`op_data.data` can be `None`, a `torch.Tensor` (of which only the shape is
inspected), or some other non-tensor object. -/
inductive OpData where
  | tensor (shape : List Nat)
  | nonTensor
  | absent
deriving Repr, DecidableEq

/-- `OperationData`: a named operand of a node together with its data. -/
structure OperationData where
  name : String
  data : OpData
deriving Repr, DecidableEq

/-- `ShardingStrategy`: the per-operand sharding specs (a dict modelled as an
association list, keys unique in practice) and the resharding costs, `none`
until `update_resharding_cost` assigns them.  Resharding costs are keyed by
the predecessor node (identified by its name). -/
structure ShardingStrategy where
  shardingSpecs : List (OperationData × ShardingSpec)
  reshardingCosts : Option (List (String × List TrainCycleItem)) := none
deriving Repr, DecidableEq

/-- A predecessor node as seen by `update_resharding_cost`: its stringified
name and its `strategies_vector` attribute, `none` when the attribute has not
been set on the node (`hasattr` is false). -/
structure PredNode where
  name : String
  strategiesVector : Option (List ShardingStrategy)
deriving Repr, DecidableEq

/-- The error taxonomy of the spec.  `orderingError` models the
`AssertionError` of the `hasattr` check (it identifies the predecessor),
`lookupError` a failed name-based lookup, `invalidLayout` the validation
failure (naming node, operand and layout), `configurationError` the
structural failures of `ModuleHandler.__init__`. -/
inductive PlanErr where
  | orderingError (predName : String)
  | lookupError (name : String)
  | invalidLayout (nodeName : String) (opName : String) (spec : ShardingSpec)
  | configurationError (msg : String)
deriving Repr, DecidableEq

/-- Sequential effectful loop over a list, stopping at the first error: the
embedding of a Python `for` loop (or consumed `map`) whose body may raise. -/
def exceptMapM {α β : Type} (f : α → Except PlanErr β) : List α → Except PlanErr (List β)
  | [] => .ok []
  | a :: as =>
    match f a with
    | .error e => .error e
    | .ok b =>
      match exceptMapM f as with
      | .error e => .error e
      | .ok bs => .ok (b :: bs)

/-- `strategy.get_sharding_spec_by_name(name)`: the sharding spec attached to
the operand whose `OperationData.name` equals `name`. -/
def get_sharding_spec_by_name (s : ShardingStrategy) (name : String) : Option ShardingSpec :=
  (s.shardingSpecs.find? (fun p => p.1.name = name)).map (·.2)

/-- `strategy.get_op_data_by_name(name)`. -/
def get_op_data_by_name (s : ShardingStrategy) (name : String) : Option OperationData :=
  (s.shardingSpecs.find? (fun p => p.1.name = name)).map (·.1)

/-- `strategy.sharding_specs[op_data]`: dictionary access by key. -/
def dictLookup (specs : List (OperationData × ShardingSpec)) (od : OperationData) :
    Option ShardingSpec :=
  (specs.find? (fun p => p.1 = od)).map (·.2)

/-- Wrapping of the oracle's cost dictionary into a `TrainCycleItem`
(`TrainCycleItem(fwd=d["forward"], bwd=d["backward"], total=d["total"])`). -/
def mkItem (d : CostDict) : TrainCycleItem :=
  { fwd := d.forward, bwd := d.backward, total := d.total }

/-- The list comprehension building `prev_sharding_specs`: one lookup
(`prev_strategy.get_sharding_spec_by_name(node_name)`), raising when the name
is absent. -/
def prevSpecLookup (pname : String) (ps : ShardingStrategy) : Except PlanErr ShardingSpec :=
  match get_sharding_spec_by_name ps pname with
  | none => .error (.lookupError pname)
  | some sp => .ok sp

/-- The body of the `for node in self.predecessor_node` loop of
`update_resharding_cost`, producing the resharding-cost entry for one
predecessor: assert the `strategies_vector` attribute exists, look up the
predecessor candidates' sharding specs by the node's name, look up the current
strategy's op data and spec for that name, and map the oracle over the
predecessor specs in order. -/
def processPred (oracle : Oracle) (strategy : ShardingStrategy) (p : PredNode) :
    Except PlanErr (String × List TrainCycleItem) :=
  match p.strategiesVector with
  | none => .error (.orderingError p.name)
  | some prevs =>
    match exceptMapM (prevSpecLookup p.name) prevs with
    | .error e => .error e
    | .ok prevSpecs =>
      match get_op_data_by_name strategy p.name with
      | none => .error (.lookupError p.name)
      | some od =>
        match dictLookup strategy.shardingSpecs od with
        | none => .error (.lookupError p.name)
        | some cur =>
          .ok (p.name, prevSpecs.map (fun pv => mkItem (oracle pv cur)))

/-- `NodeHandler.update_resharding_cost`: build the resharding-cost dictionary
over all predecessors and assign it to the strategy.  On any raised error the
assignment `strategy.resharding_costs = resharding_costs` is never reached. -/
def update_resharding_cost (oracle : Oracle) (preds : List PredNode)
    (strategy : ShardingStrategy) : Except PlanErr ShardingStrategy :=
  match exceptMapM (processPred oracle strategy) preds with
  | .error e => .error e
  | .ok entries => .ok { strategy with reshardingCosts := some entries }

/-- The result of `post_process`: `Union[ShardingStrategy, List[ShardingStrategy]]`. -/
inductive PostResult where
  | single (s : ShardingStrategy)
  | multi (ss : List ShardingStrategy)

/-- The flattening loop of `register_strategy`: a list/tuple result is
extended in place, a single strategy is appended. -/
def flattenPost : PostResult → List ShardingStrategy
  | .single s => [s]
  | .multi ss => ss

/-- One generator's raw candidates after `post_process` and flattening,
order preserved. -/
def flattenCandidates (pp : ShardingStrategy → PostResult)
    (gen : List ShardingStrategy) : List ShardingStrategy :=
  (gen.map pp).flatMap flattenPost

/-- Modelled from the spec: `check_sharding_spec_validity` (in
`tensor_shard/utils`, not part of the provided sources) per the §4.1
validation rule: (a) every referenced dimension index exists in the tensor's
rank and every mesh axis exists in the mesh, (b) the size along a sharded
dimension is divisible by the product of the mesh-axis sizes assigned to it,
(c) no mesh axis is assigned to more than one dimension. -/
def check_sharding_spec_validity (spec : ShardingSpec) (shape : List Nat) : Bool :=
  spec.dimPartition.all (fun dp =>
    decide (dp.1 < shape.length) &&
    dp.2.all (fun a => decide (a < spec.meshShape.length)) &&
    decide (shape.getD dp.1 1 % (dp.2.map (fun a => spec.meshShape.getD a 1)).prod = 0)) &&
  decide (spec.dimPartition.flatMap Prod.snd).Nodup

/-- The validation loop body for one strategy: for each
`(op_data, sharding_spec)` pair, the validity check runs only when
`op_data.data is not None and isinstance(op_data.data, torch.Tensor)`;
a failing check raises `InvalidLayoutError` naming node, operand and layout. -/
def validateSpecs (nodeName : String) :
    List (OperationData × ShardingSpec) → Except PlanErr Unit
  | [] => .ok ()
  | (od, sp) :: rest =>
    match od.data with
    | .tensor shape =>
      if check_sharding_spec_validity sp shape then validateSpecs nodeName rest
      else .error (.invalidLayout nodeName od.name sp)
    | _ => validateSpecs nodeName rest

/-- The outer validation loop of `register_strategy`, over the whole
strategies vector. -/
def validateVector (nodeName : String) : List ShardingStrategy → Except PlanErr Unit
  | [] => .ok ()
  | s :: rest =>
    match validateSpecs nodeName s.shardingSpecs with
    | .error e => .error e
    | .ok _ => validateVector nodeName rest

/-- The `for generator in strategy_generators` loop of `register_strategy`:
post-process and flatten one generator's output, optionally map
`update_resharding_cost` over it, then extend the strategies vector.  The
state of `self.strategies_vector` is threaded explicitly so that its contents
at the moment an exception propagates are visible. -/
def registerLoop (oracle : Oracle) (preds : List PredNode)
    (pp : ShardingStrategy → PostResult) (compute : Bool) :
    List ShardingStrategy → List (List ShardingStrategy) →
    List ShardingStrategy × Except PlanErr Unit
  | sv, [] => (sv, .ok ())
  | sv, gen :: rest =>
    match (if compute then exceptMapM (update_resharding_cost oracle preds)
             (flattenCandidates pp gen)
           else .ok (flattenCandidates pp gen)) with
    | .error e => (sv, .error e)
    | .ok cands => registerLoop oracle preds pp compute (sv ++ cands) rest

/-- `NodeHandler.register_strategy`: run the generator loop, then validate
every strategy in the vector, then return the vector.  The first component of
the result is the final state of `self.strategies_vector` (mutated in place
in Python, so it keeps its contents even when an exception propagates); the
second is the normal return value or the raised error. -/
def register_strategy (oracle : Oracle) (preds : List PredNode) (nodeName : String)
    (pp : ShardingStrategy → PostResult) (gens : List (List ShardingStrategy))
    (compute : Bool) (sv0 : List ShardingStrategy) :
    List ShardingStrategy × Except PlanErr (List ShardingStrategy) :=
  match registerLoop oracle preds pp compute sv0 gens with
  | (sv, .error e) => (sv, .error e)
  | (sv, .ok _) =>
    match validateVector nodeName sv with
    | .error e => (sv, .error e)
    | .ok _ => (sv, .ok sv)

/-- Looking up a predecessor's cost vector in a strategy's resharding costs
(`strategy.resharding_costs[p]`). -/
def costsFor (s : ShardingStrategy) (predName : String) : Option (List TrainCycleItem) :=
  s.reshardingCosts.bind (fun es => (es.find? (fun e => e.1 = predName)).map (·.2))

/-- Default strategy used with `List.getD` in index-based statements. -/
def dfltStrategy : ShardingStrategy := { shardingSpecs := [], reshardingCosts := none }

/-- Default cost item used with `List.getD` in index-based statements. -/
def dfltItem : TrainCycleItem := { fwd := 0, bwd := 0, total := 0 }

/-- Default resharding-cost entry used with `List.getD`. -/
def dfltEntry : String × List TrainCycleItem := ("", [])

/-! ### Generic facts about the effectful loop `exceptMapM` -/

theorem exceptMapM_ok_length {α β : Type} {f : α → Except PlanErr β} {l : List α}
    {bs : List β} (h : exceptMapM f l = .ok bs) : bs.length = l.length := by
  induction l generalizing bs with
  | nil =>
    simp only [exceptMapM, Except.ok.injEq] at h
    subst h; rfl
  | cons a as ih =>
    unfold exceptMapM at h
    cases hfa : f a with
    | error e => rw [hfa] at h; cases h
    | ok b =>
      rw [hfa] at h
      cases hrest : exceptMapM f as with
      | error e => rw [hrest] at h; cases h
      | ok bs' =>
        rw [hrest] at h
        simp only [Except.ok.injEq] at h
        subst h
        simp [ih hrest]

theorem exceptMapM_ok_getD {α β : Type} {f : α → Except PlanErr β} {l : List α}
    {bs : List β} (h : exceptMapM f l = .ok bs) (da : α) (db : β) :
    ∀ i, i < l.length → f (l.getD i da) = .ok (bs.getD i db) := by
  induction l generalizing bs with
  | nil => intro i hi; simp at hi
  | cons a as ih =>
    unfold exceptMapM at h
    cases hfa : f a with
    | error e => rw [hfa] at h; cases h
    | ok b =>
      rw [hfa] at h
      cases hrest : exceptMapM f as with
      | error e => rw [hrest] at h; cases h
      | ok bs' =>
        rw [hrest] at h
        simp only [Except.ok.injEq] at h
        subst h
        intro i hi
        cases i with
        | zero => simpa using hfa
        | succ j =>
          simp only [List.getD_cons_succ]
          exact ih hrest j (by simpa using hi)

theorem exceptMapM_ok_of_mem {α β : Type} {f : α → Except PlanErr β} {l : List α}
    {bs : List β} (h : exceptMapM f l = .ok bs) :
    ∀ a ∈ l, ∃ b, f a = .ok b := by
  induction l generalizing bs with
  | nil => intro a ha; simp at ha
  | cons x as ih =>
    unfold exceptMapM at h
    cases hfa : f x with
    | error e => rw [hfa] at h; cases h
    | ok b =>
      rw [hfa] at h
      cases hrest : exceptMapM f as with
      | error e => rw [hrest] at h; cases h
      | ok bs' =>
        intro a ha
        rcases List.mem_cons.mp ha with rfl | ha'
        · exact ⟨b, hfa⟩
        · exact ih hrest a ha'

theorem exceptMapM_mem_of_ok {α β : Type} {f : α → Except PlanErr β} {l : List α}
    {bs : List β} (h : exceptMapM f l = .ok bs) :
    ∀ b ∈ bs, ∃ a ∈ l, f a = .ok b := by
  induction l generalizing bs with
  | nil =>
    simp only [exceptMapM, Except.ok.injEq] at h
    subst h; intro b hb; simp at hb
  | cons x as ih =>
    unfold exceptMapM at h
    cases hfa : f x with
    | error e => rw [hfa] at h; cases h
    | ok b0 =>
      rw [hfa] at h
      cases hrest : exceptMapM f as with
      | error e => rw [hrest] at h; cases h
      | ok bs' =>
        rw [hrest] at h
        simp only [Except.ok.injEq] at h
        subst h
        intro b hb
        rcases List.mem_cons.mp hb with rfl | hb'
        · exact ⟨x, List.mem_cons_self _ _, hfa⟩
        · rcases ih hrest b hb' with ⟨a, ha, hfa'⟩
          exact ⟨a, List.mem_cons_of_mem _ ha, hfa'⟩

theorem exceptMapM_error_of_mem {α β : Type} {f : α → Except PlanErr β} {l : List α}
    {e : PlanErr} (h : exceptMapM f l = .error e) :
    ∃ a ∈ l, f a = .error e := by
  induction l with
  | nil => simp [exceptMapM] at h
  | cons x as ih =>
    unfold exceptMapM at h
    cases hfa : f x with
    | error e' =>
      rw [hfa] at h
      simp only [Except.error.injEq] at h
      subst h
      exact ⟨x, List.mem_cons_self _ _, hfa⟩
    | ok b =>
      rw [hfa] at h
      cases hrest : exceptMapM f as with
      | error e' =>
        rw [hrest] at h
        simp only [Except.error.injEq] at h
        subst h
        rcases ih hrest with ⟨a, ha, hfa'⟩
        exact ⟨a, List.mem_cons_of_mem _ ha, hfa'⟩
      | ok bs' => rw [hrest] at h; cases h

theorem exceptMapM_append_ok {α β : Type} {f : α → Except PlanErr β} {l₁ l₂ : List α}
    {b₁ b₂ : List β} (h₁ : exceptMapM f l₁ = .ok b₁) (h₂ : exceptMapM f l₂ = .ok b₂) :
    exceptMapM f (l₁ ++ l₂) = .ok (b₁ ++ b₂) := by
  induction l₁ generalizing b₁ with
  | nil =>
    simp only [exceptMapM, Except.ok.injEq] at h₁
    subst h₁
    simpa using h₂
  | cons x as ih =>
    unfold exceptMapM at h₁
    cases hfa : f x with
    | error e => rw [hfa] at h₁; cases h₁
    | ok b =>
      rw [hfa] at h₁
      cases hrest : exceptMapM f as with
      | error e => rw [hrest] at h₁; cases h₁
      | ok bs' =>
        rw [hrest] at h₁
        simp only [Except.ok.injEq] at h₁
        subst h₁
        simp only [List.cons_append]
        unfold exceptMapM
        rw [hfa, ih hrest]

/-- Default predecessor node used with `List.getD`. -/
def dfltPred : PredNode := { name := "", strategiesVector := none }

/-- Default sharding spec used with `List.getD`. -/
def dfltSpec : ShardingSpec := { meshShape := [], dimPartition := [] }

/-! ### Structural facts about the resharding-cost loop -/

theorem prevSpecLookup_ok {pname : String} {ps : ShardingStrategy} {sp : ShardingSpec}
    (h : prevSpecLookup pname ps = .ok sp) :
    get_sharding_spec_by_name ps pname = some sp := by
  unfold prevSpecLookup at h
  cases hg : get_sharding_spec_by_name ps pname with
  | none => rw [hg] at h; cases h
  | some sp' =>
    rw [hg] at h
    simp only [Except.ok.injEq] at h
    rw [h]

theorem prevSpecLookup_error {pname : String} {ps : ShardingStrategy} {e : PlanErr}
    (h : prevSpecLookup pname ps = .error e) : e = .lookupError pname := by
  unfold prevSpecLookup at h
  cases hg : get_sharding_spec_by_name ps pname with
  | none =>
    rw [hg] at h
    simp only [Except.error.injEq] at h
    exact h.symm
  | some sp' => rw [hg] at h; cases h

theorem processPred_ok {oracle : Oracle} {S : ShardingStrategy} {p : PredNode}
    {r : String × List TrainCycleItem} (h : processPred oracle S p = .ok r) :
    ∃ prevs prevSpecs od cur,
      p.strategiesVector = some prevs ∧
      exceptMapM (prevSpecLookup p.name) prevs = .ok prevSpecs ∧
      get_op_data_by_name S p.name = some od ∧
      dictLookup S.shardingSpecs od = some cur ∧
      r = (p.name, prevSpecs.map fun pv => mkItem (oracle pv cur)) := by
  unfold processPred at h
  cases hsv : p.strategiesVector with
  | none => simp only [hsv] at h; exact Except.noConfusion h
  | some prevs =>
    simp only [hsv] at h
    cases hspecs : exceptMapM (prevSpecLookup p.name) prevs with
    | error e => simp only [hspecs] at h; exact Except.noConfusion h
    | ok prevSpecs =>
      simp only [hspecs] at h
      cases hod : get_op_data_by_name S p.name with
      | none => simp only [hod] at h; exact Except.noConfusion h
      | some od =>
        simp only [hod] at h
        cases hcur : dictLookup S.shardingSpecs od with
        | none => simp only [hcur] at h; exact Except.noConfusion h
        | some cur =>
          simp only [hcur, Except.ok.injEq] at h
          exact ⟨prevs, prevSpecs, od, cur, rfl, hspecs, rfl, hcur, h.symm⟩

theorem processPred_error {oracle : Oracle} {S : ShardingStrategy} {p : PredNode}
    {e : PlanErr} (h : processPred oracle S p = .error e) :
    (∃ n, e = .orderingError n) ∨ (∃ n, e = .lookupError n) := by
  unfold processPred at h
  cases hsv : p.strategiesVector with
  | none =>
    simp only [hsv, Except.error.injEq] at h
    exact Or.inl ⟨p.name, h.symm⟩
  | some prevs =>
    simp only [hsv] at h
    cases hspecs : exceptMapM (prevSpecLookup p.name) prevs with
    | error e' =>
      simp only [hspecs, Except.error.injEq] at h
      subst h
      rcases exceptMapM_error_of_mem hspecs with ⟨ps, _, hps⟩
      exact Or.inr ⟨p.name, prevSpecLookup_error hps⟩
    | ok prevSpecs =>
      simp only [hspecs] at h
      cases hod : get_op_data_by_name S p.name with
      | none =>
        simp only [hod, Except.error.injEq] at h
        exact Or.inr ⟨p.name, h.symm⟩
      | some od =>
        simp only [hod] at h
        cases hcur : dictLookup S.shardingSpecs od with
        | none =>
          simp only [hcur, Except.error.injEq] at h
          exact Or.inr ⟨p.name, h.symm⟩
        | some cur => simp only [hcur] at h; exact Except.noConfusion h

theorem update_resharding_cost_ok {oracle : Oracle} {preds : List PredNode}
    {S S' : ShardingStrategy} (h : update_resharding_cost oracle preds S = .ok S') :
    ∃ entries, exceptMapM (processPred oracle S) preds = .ok entries ∧
      S' = { S with reshardingCosts := some entries } := by
  unfold update_resharding_cost at h
  cases hm : exceptMapM (processPred oracle S) preds with
  | error e => rw [hm] at h; cases h
  | ok entries =>
    rw [hm] at h
    simp only [Except.ok.injEq] at h
    exact ⟨entries, rfl, h.symm⟩

theorem update_resharding_cost_error {oracle : Oracle} {preds : List PredNode}
    {S : ShardingStrategy} {e : PlanErr}
    (h : update_resharding_cost oracle preds S = .error e) :
    exceptMapM (processPred oracle S) preds = .error e := by
  unfold update_resharding_cost at h
  cases hm : exceptMapM (processPred oracle S) preds with
  | error e' =>
    rw [hm] at h
    simp only [Except.error.injEq] at h
    rw [h]
  | ok entries => rw [hm] at h; cases h

theorem entries_names {oracle : Oracle} {S : ShardingStrategy} {preds : List PredNode}
    {entries : List (String × List TrainCycleItem)}
    (h : exceptMapM (processPred oracle S) preds = .ok entries) :
    entries.map Prod.fst = preds.map PredNode.name := by
  induction preds generalizing entries with
  | nil =>
    simp only [exceptMapM, Except.ok.injEq] at h
    subst h; rfl
  | cons p ps ih =>
    unfold exceptMapM at h
    cases hfa : processPred oracle S p with
    | error e => rw [hfa] at h; cases h
    | ok r =>
      rw [hfa] at h
      cases hrest : exceptMapM (processPred oracle S) ps with
      | error e => rw [hrest] at h; cases h
      | ok rs =>
        rw [hrest] at h
        simp only [Except.ok.injEq] at h
        subst h
        rcases processPred_ok hfa with ⟨_, _, _, _, _, _, _, _, hr⟩
        simp [hr, ih hrest]

theorem find?_getD_of_nodup {β : Type} (l : List (String × β))
    (hnd : (l.map Prod.fst).Nodup) (j : Nat) (hj : j < l.length) (d : String × β) :
    l.find? (fun e => e.1 = (l.getD j d).1) = some (l.getD j d) := by
  induction l generalizing j with
  | nil => simp at hj
  | cons x xs ih =>
    rcases List.nodup_cons.mp hnd with ⟨hx, hxs⟩
    cases j with
    | zero =>
      simp only [List.getD_cons_zero]
      exact List.find?_cons_of_pos _ (by simp)
    | succ j' =>
      have hj' : j' < xs.length := by simpa using hj
      simp only [List.getD_cons_succ]
      have hmem : xs.getD j' d ∈ xs := by
        rw [List.getD_eq_getElem _ _ hj']
        exact List.getElem_mem hj'
      have hne : x.1 ≠ (xs.getD j' d).1 := by
        intro heq
        exact hx (heq ▸ List.mem_map_of_mem Prod.fst hmem)
      rw [List.find?_cons_of_neg _ (by simpa using hne)]
      exact ih hxs j' hj'

/-- Central specification of a successful `update_resharding_cost`: for every
predecessor `P` (names unique, as Python dict keys are distinct node objects)
with candidates `prevs`, the strategy's cost vector for `P` has one entry per
candidate, each the oracle's triple for (candidate layout, current layout). -/
theorem update_costsFor_spec (oracle : Oracle) (preds : List PredNode)
    (S S' : ShardingStrategy) (P : PredNode) (prevs : List ShardingStrategy)
    (h : update_resharding_cost oracle preds S = .ok S')
    (hnd : (preds.map PredNode.name).Nodup)
    (hP : P ∈ preds) (hsv : P.strategiesVector = some prevs) :
    ∃ cs od cur,
      costsFor S' P.name = some cs ∧
      get_op_data_by_name S P.name = some od ∧
      dictLookup S.shardingSpecs od = some cur ∧
      cs.length = prevs.length ∧
      ∀ i, i < prevs.length →
        ∃ pv, get_sharding_spec_by_name (prevs.getD i dfltStrategy) P.name = some pv ∧
          cs.getD i dfltItem = mkItem (oracle pv cur) := by
  rcases update_resharding_cost_ok h with ⟨entries, hm, rfl⟩
  rcases List.getElem_of_mem hP with ⟨j, hj, hPj⟩
  have hlen : entries.length = preds.length := exceptMapM_ok_length hm
  have hproc := exceptMapM_ok_getD hm dfltPred dfltEntry j hj
  rw [List.getD_eq_getElem _ _ hj, hPj] at hproc
  rcases processPred_ok hproc with ⟨prevs', prevSpecs, od, cur, hsv', hspecs, hod, hcur, hr⟩
  rw [hsv] at hsv'
  injection hsv' with hprevs
  subst hprevs
  have hnames := entries_names hm
  have hndE : (entries.map Prod.fst).Nodup := by rw [hnames]; exact hnd
  have hjE : j < entries.length := by omega
  have hfind := find?_getD_of_nodup entries hndE j hjE dfltEntry
  have hfst : (entries.getD j dfltEntry).1 = P.name := by rw [hr]
  refine ⟨prevSpecs.map fun pv => mkItem (oracle pv cur), od, cur, ?_, hod, hcur, ?_, ?_⟩
  · unfold costsFor
    simp only [Option.bind_some, Option.some_bind]
    rw [← hfst] at *
    rw [hfind, hr]
    rfl
  · rw [List.length_map]
    exact exceptMapM_ok_length hspecs
  · intro i hi
    have hlenS : prevSpecs.length = prevs.length := exceptMapM_ok_length hspecs
    have hlook := exceptMapM_ok_getD hspecs dfltStrategy dfltSpec i hi
    refine ⟨prevSpecs.getD i dfltSpec, prevSpecLookup_ok hlook, ?_⟩
    have hiS : i < prevSpecs.length := by omega
    rw [List.getD_eq_getElem _ _ (by simpa using hiS), List.getD_eq_getElem _ _ hiS,
      List.getElem_map]

/-! ### Structural facts about the registration loop and validation -/

theorem registerLoop_false (oracle : Oracle) (preds : List PredNode)
    (pp : ShardingStrategy → PostResult) :
    ∀ (gens : List (List ShardingStrategy)) (sv : List ShardingStrategy),
      registerLoop oracle preds pp false sv gens =
        (sv ++ gens.flatMap (flattenCandidates pp), .ok ()) := by
  intro gens
  induction gens with
  | nil => intro sv; simp [registerLoop]
  | cons g gs ih =>
    intro sv
    unfold registerLoop
    rw [if_neg (by simp)]
    simp only [List.flatMap_cons, ← List.append_assoc]
    exact ih (sv ++ flattenCandidates pp g)

theorem registerLoop_prefix {oracle : Oracle} {preds : List PredNode}
    {pp : ShardingStrategy → PostResult} {compute : Bool} :
    ∀ {gens : List (List ShardingStrategy)} {sv sv' : List ShardingStrategy}
      {r : Except PlanErr Unit},
      registerLoop oracle preds pp compute sv gens = (sv', r) → ∃ t, sv' = sv ++ t := by
  intro gens
  induction gens with
  | nil =>
    intro sv sv' r h
    simp only [registerLoop, Prod.mk.injEq] at h
    exact ⟨[], by simp [h.1]⟩
  | cons g gs ih =>
    intro sv sv' r h
    unfold registerLoop at h
    cases hc : (if compute then
        exceptMapM (update_resharding_cost oracle preds) (flattenCandidates pp g)
      else .ok (flattenCandidates pp g)) with
    | error e =>
      rw [hc] at h
      simp only [Prod.mk.injEq] at h
      exact ⟨[], by simp [h.1]⟩
    | ok cands =>
      rw [hc] at h
      rcases ih h with ⟨t, ht⟩
      exact ⟨cands ++ t, by simp [ht]⟩

theorem registerLoop_true_ok {oracle : Oracle} {preds : List PredNode}
    {pp : ShardingStrategy → PostResult} :
    ∀ {gens : List (List ShardingStrategy)} {sv sv' : List ShardingStrategy},
      registerLoop oracle preds pp true sv gens = (sv', .ok ()) →
      ∃ u, exceptMapM (update_resharding_cost oracle preds)
             (gens.flatMap (flattenCandidates pp)) = .ok u ∧ sv' = sv ++ u := by
  intro gens
  induction gens with
  | nil =>
    intro sv sv' h
    simp only [registerLoop, Prod.mk.injEq] at h
    exact ⟨[], by simp [exceptMapM], by simp [h.1]⟩
  | cons g gs ih =>
    intro sv sv' h
    unfold registerLoop at h
    rw [if_pos rfl] at h
    cases hm : exceptMapM (update_resharding_cost oracle preds) (flattenCandidates pp g) with
    | error e =>
      rw [hm] at h
      simp only [Prod.mk.injEq] at h
      exact absurd h.2 (by simp)
    | ok cands =>
      rw [hm] at h
      rcases ih h with ⟨u', hu', hsv'⟩
      refine ⟨cands ++ u', ?_, by simp [hsv']⟩
      rw [List.flatMap_cons]
      exact exceptMapM_append_ok hm hu'

theorem registerLoop_error {oracle : Oracle} {preds : List PredNode}
    {pp : ShardingStrategy → PostResult} {compute : Bool} :
    ∀ {gens : List (List ShardingStrategy)} {sv sv' : List ShardingStrategy} {e : PlanErr},
      registerLoop oracle preds pp compute sv gens = (sv', .error e) →
      ∃ s, update_resharding_cost oracle preds s = .error e := by
  intro gens
  induction gens with
  | nil =>
    intro sv sv' e h
    simp only [registerLoop, Prod.mk.injEq] at h
    exact absurd h.2 (by simp)
  | cons g gs ih =>
    intro sv sv' e h
    unfold registerLoop at h
    cases hc : (if compute then
        exceptMapM (update_resharding_cost oracle preds) (flattenCandidates pp g)
      else .ok (flattenCandidates pp g)) with
    | error e' =>
      rw [hc] at h
      simp only [Prod.mk.injEq, Except.error.injEq] at h
      cases hcompute : compute with
      | false =>
        rw [hcompute, if_neg (by simp)] at hc
        exact Except.noConfusion hc
      | true =>
        rw [hcompute, if_pos rfl] at hc
        rcases exceptMapM_error_of_mem hc with ⟨s, _, hs⟩
        exact ⟨s, h.2 ▸ hs⟩
    | ok cands =>
      rw [hc] at h
      exact ih h

theorem validateSpecs_ok_of {n : String} :
    ∀ {specs : List (OperationData × ShardingSpec)}, validateSpecs n specs = .ok () →
      ∀ od sp, (od, sp) ∈ specs → ∀ shape, od.data = OpData.tensor shape →
        check_sharding_spec_validity sp shape = true := by
  intro specs
  induction specs with
  | nil => intro _ od sp hmem; simp at hmem
  | cons x rest ih =>
    obtain ⟨od0, sp0⟩ := x
    intro h od sp hmem shape hdata
    unfold validateSpecs at h
    rcases List.mem_cons.mp hmem with heq | hmem'
    · obtain ⟨rfl, rfl⟩ := Prod.ext_iff.mp heq
      simp only [hdata] at h
      by_cases hc : check_sharding_spec_validity sp shape
      · exact hc
      · rw [if_neg hc] at h; exact Except.noConfusion h
    · cases hd0 : od0.data with
      | tensor shape0 =>
        simp only [hd0] at h
        by_cases hc : check_sharding_spec_validity sp0 shape0
        · rw [if_pos hc] at h; exact ih h od sp hmem' shape hdata
        · rw [if_neg hc] at h; exact Except.noConfusion h
      | nonTensor => simp only [hd0] at h; exact ih h od sp hmem' shape hdata
      | absent => simp only [hd0] at h; exact ih h od sp hmem' shape hdata

theorem validateSpecs_ok_mp {n : String} :
    ∀ {specs : List (OperationData × ShardingSpec)},
      (∀ od sp, (od, sp) ∈ specs → ∀ shape, od.data = OpData.tensor shape →
        check_sharding_spec_validity sp shape = true) →
      validateSpecs n specs = .ok () := by
  intro specs
  induction specs with
  | nil => intro _; rfl
  | cons x rest ih =>
    obtain ⟨od0, sp0⟩ := x
    intro h
    have hrest := ih (fun od sp hm shape hd => h od sp (List.mem_cons_of_mem _ hm) shape hd)
    cases hd0 : od0.data with
    | tensor shape0 =>
      unfold validateSpecs
      simp only [hd0]
      rw [if_pos (h od0 sp0 (List.mem_cons_self _ _) shape0 hd0)]
      exact hrest
    | nonTensor =>
      unfold validateSpecs
      simp only [hd0]
      exact hrest
    | absent =>
      unfold validateSpecs
      simp only [hd0]
      exact hrest

theorem validateVector_ok_of {n : String} :
    ∀ {sv : List ShardingStrategy}, validateVector n sv = .ok () →
      ∀ s ∈ sv, validateSpecs n s.shardingSpecs = .ok () := by
  intro sv
  induction sv with
  | nil => intro _ s hs; simp at hs
  | cons x rest ih =>
    intro h s hs
    unfold validateVector at h
    cases hx : validateSpecs n x.shardingSpecs with
    | error e => rw [hx] at h; exact Except.noConfusion h
    | ok u =>
      rw [hx] at h
      rcases List.mem_cons.mp hs with rfl | hs'
      · cases u; exact hx
      · exact ih h s hs'

theorem validateVector_ok_mp {n : String} :
    ∀ {sv : List ShardingStrategy},
      (∀ s ∈ sv, validateSpecs n s.shardingSpecs = .ok ()) →
      validateVector n sv = .ok () := by
  intro sv
  induction sv with
  | nil => intro _; rfl
  | cons x rest ih =>
    intro h
    unfold validateVector
    rw [h x (List.mem_cons_self _ _)]
    exact ih (fun s hs => h s (List.mem_cons_of_mem _ hs))

theorem validateVector_error {n : String} :
    ∀ {sv : List ShardingStrategy} {e : PlanErr}, validateVector n sv = .error e →
      ∃ opName sp, e = .invalidLayout n opName sp := by
  intro sv
  induction sv with
  | nil => intro e h; exact Except.noConfusion h
  | cons x rest ih =>
    intro e h
    unfold validateVector at h
    cases hx : validateSpecs n x.shardingSpecs with
    | error e' =>
      rw [hx] at h
      have hspec : ∀ {specs : List (OperationData × ShardingSpec)} {e'' : PlanErr},
          validateSpecs n specs = .error e'' → ∃ opName sp, e'' = .invalidLayout n opName sp := by
        intro specs
        induction specs with
        | nil => intro e'' hh; exact Except.noConfusion hh
        | cons y ys ihy =>
          obtain ⟨ody, spy⟩ := y
          intro e'' hh
          unfold validateSpecs at hh
          cases hdy : ody.data with
          | tensor shape =>
            simp only [hdy] at hh
            by_cases hc : check_sharding_spec_validity spy shape
            · rw [if_pos hc] at hh; exact ihy hh
            · rw [if_neg hc] at hh
              simp only [Except.error.injEq] at hh
              exact ⟨ody.name, spy, hh.symm⟩
          | nonTensor => simp only [hdy] at hh; exact ihy hh
          | absent => simp only [hdy] at hh; exact ihy hh
      simp only [Except.error.injEq] at h
      exact h ▸ hspec hx
    | ok u => rw [hx] at h; exact ih h

theorem register_strategy_fst (oracle : Oracle) (preds : List PredNode) (nodeName : String)
    (pp : ShardingStrategy → PostResult) (gens : List (List ShardingStrategy))
    (compute : Bool) (sv0 : List ShardingStrategy) :
    (register_strategy oracle preds nodeName pp gens compute sv0).1 =
      (registerLoop oracle preds pp compute sv0 gens).1 := by
  unfold register_strategy
  cases hl : registerLoop oracle preds pp compute sv0 gens with
  | mk sv1 r =>
    cases r with
    | error e => rfl
    | ok u =>
      cases hv : validateVector nodeName sv1 with
      | error e => simp [hv]
      | ok u2 => simp [hv]

theorem register_strategy_ok_elim {oracle : Oracle} {preds : List PredNode}
    {nodeName : String} {pp : ShardingStrategy → PostResult}
    {gens : List (List ShardingStrategy)} {compute : Bool}
    {sv0 sv : List ShardingStrategy}
    (h : (register_strategy oracle preds nodeName pp gens compute sv0).2 = .ok sv) :
    registerLoop oracle preds pp compute sv0 gens = (sv, .ok ()) ∧
    validateVector nodeName sv = .ok () ∧
    (register_strategy oracle preds nodeName pp gens compute sv0).1 = sv := by
  cases hl : registerLoop oracle preds pp compute sv0 gens with
  | mk sv1 r =>
    unfold register_strategy at h
    rw [hl] at h
    cases r with
    | error e => exact Except.noConfusion h
    | ok u =>
      cases u
      cases hv : validateVector nodeName sv1 with
      | error e =>
        simp only [hv] at h
        exact Except.noConfusion h
      | ok u2 =>
        cases u2
        simp only [hv, Except.ok.injEq] at h
        subst h
        exact ⟨rfl, hv, by unfold register_strategy; rw [hl]; simp [hv]⟩

theorem register_strategy_error_elim {oracle : Oracle} {preds : List PredNode}
    {nodeName : String} {pp : ShardingStrategy → PostResult}
    {gens : List (List ShardingStrategy)} {compute : Bool}
    {sv0 : List ShardingStrategy} {e : PlanErr}
    (h : (register_strategy oracle preds nodeName pp gens compute sv0).2 = .error e) :
    (∃ s, update_resharding_cost oracle preds s = .error e) ∨
    (∃ opName sp, e = .invalidLayout nodeName opName sp) := by
  cases hl : registerLoop oracle preds pp compute sv0 gens with
  | mk sv1 r =>
    unfold register_strategy at h
    rw [hl] at h
    cases r with
    | error e' =>
      have h' : @Except.error PlanErr (List ShardingStrategy) e' = Except.error e := h
      injection h' with he
      subst he
      exact Or.inl (registerLoop_error hl)
    | ok u =>
      cases u
      cases hv : validateVector nodeName sv1 with
      | error e' =>
        simp only [hv, Except.error.injEq] at h
        subst h
        exact Or.inr (validateVector_error hv)
      | ok u2 =>
        cases u2
        simp only [hv] at h
        exact Except.noConfusion h

/-! ### ModuleHandler -/

/-- A stateful operator instance (`torch.nn.Module`) as the handler sees it:
its non-recursive named parameters and buffers, each a name paired with the
tensor's shape metadata (the only part of the tensor this core reads). -/
structure PyModule where
  params : List (String × List Nat)
  buffers : List (String × List Nat)
deriving Repr, DecidableEq

/-- Modelled from the spec: the graph's owning container
(`graph.owning_module`, a `GraphModule`, external to the provided sources)
exposes submodule resolution by target name (`get_submodule`). -/
structure OwningModule where
  submodules : List (String × PyModule)
deriving Repr, DecidableEq

/-- `owning_module.get_submodule(target)`: `none` models the `AttributeError`
raised by torch when the target path does not resolve. -/
def get_submodule (om : OwningModule) (target : String) : Option PyModule :=
  (om.submodules.find? (fun p => p.1 = target)).map (·.2)

/-- The part of a `torch.fx` graph the handler touches. -/
structure FxGraph where
  owningModule : Option OwningModule
deriving Repr, DecidableEq

/-- The part of a `torch.fx` node `ModuleHandler.__init__` touches. -/
structure FxNode where
  graph : FxGraph
  target : String
deriving Repr, DecidableEq

/-- The attributes `ModuleHandler.__init__` sets on success.  The Python code
converts the `named_parameters`/`named_buffers` lists to dicts; names of
non-recursive parameters and buffers are unique, so the dict is the
association list itself. -/
structure ModuleHandlerState where
  module : PyModule
  named_parameters : List (String × List Nat)
  named_buffers : List (String × List Nat)
deriving Repr, DecidableEq

/-- `ModuleHandler.__init__` (after the `NodeHandler` fields are set): assert
the graph has an owning module, resolve the submodule at `node.target`, and
capture its non-recursive parameter and buffer maps. -/
def ModuleHandler_init (node : FxNode) : Except PlanErr ModuleHandlerState :=
  match node.graph.owningModule with
  | none => .error (.configurationError "The graph is not associated with a module")
  | some om =>
    match get_submodule om node.target with
    | none => .error (.configurationError "node target does not resolve to a submodule")
    | some m =>
      .ok { module := m, named_parameters := m.params, named_buffers := m.buffers }

/-! ### Concrete instances (mesh `(2, 2)`, tensors `(3, 8)` and `(8, 8)`) -/

def mesh22 : List Nat := [2, 2]

def specDim0 : ShardingSpec := { meshShape := mesh22, dimPartition := [(0, [0])] }

def specDim1 : ShardingSpec := { meshShape := mesh22, dimPartition := [(1, [1])] }

def odX38 : OperationData := { name := "x", data := .tensor [3, 8] }

def odP88 : OperationData := { name := "p", data := .tensor [8, 8] }

def sBad : ShardingStrategy := { shardingSpecs := [(odX38, specDim0)] }

def sGood : ShardingStrategy := { shardingSpecs := [(odX38, specDim1)] }

def strategyS : ShardingStrategy := { shardingSpecs := [(odP88, specDim1)] }

def prevStrat : ShardingStrategy := { shardingSpecs := [(odP88, specDim0)] }

def predP : PredNode := { name := "p", strategiesVector := some [prevStrat] }

def predEmpty : PredNode := { name := "p", strategiesVector := some [] }

def predMissing : PredNode := { name := "q", strategiesVector := none }

def oracle0 : Oracle := fun _ _ => { forward := 0, backward := 0, total := 0 }

def oracle123 : Oracle := fun _ _ => { forward := 1, backward := 2, total := 3 }

def oracleNeg : Oracle := fun _ _ => { forward := -5, backward := -3, total := -8 }

def oracleOdd : Oracle := fun _ _ => { forward := 1, backward := 2, total := 100 }

def strategySRes : ShardingStrategy :=
  { shardingSpecs := [(odP88, specDim1)],
    reshardingCosts := some [("p", [{ fwd := 1, bwd := 2, total := 3 }])] }

def strategySResOdd : ShardingStrategy :=
  { shardingSpecs := [(odP88, specDim1)],
    reshardingCosts := some [("p", [{ fwd := 1, bwd := 2, total := 100 }])] }

def odAbs : OperationData := { name := "meta", data := .absent }

def specInvalid : ShardingSpec := { meshShape := mesh22, dimPartition := [(5, [0, 0, 7])] }

def sUnchecked : ShardingStrategy := { shardingSpecs := [(odAbs, specInvalid)] }

def linearMod : PyModule := { params := [("weight", [4, 2]), ("bias", [4])], buffers := [] }

def owningM : OwningModule := { submodules := [("fc", linearMod)] }

def nodeFc : FxNode := { graph := { owningModule := some owningM }, target := "fc" }

/-! ### Claim theorems -/

/-- C1, counterexample to the claim as stated: with candidates
`[sBad, sGood]` (the `(3, 8)` tensor cannot be sharded along dimension 0 by a
mesh axis of size 2, while sharding dimension 1 is fine), `register_strategy`
does not exclude the invalid candidate and continue: it raises
`InvalidLayoutError` after having committed both candidates, and the invalid
strategy is present in the strategies vector when the error propagates. -/
theorem C1_counterexample :
    (register_strategy oracle0 [] "n" PostResult.single [[sBad, sGood]] false []).2
        = .error (.invalidLayout "n" "x" specDim0) ∧
    sBad ∈ (register_strategy oracle0 [] "n" PostResult.single [[sBad, sGood]] false []).1 ∧
    sGood ∈ (register_strategy oracle0 [] "n" PostResult.single [[sBad, sGood]] false []).1 :=
  ⟨rfl, by decide, by decide⟩

/-- C1 (amended): `register_strategy` first commits all candidates and then
validates the whole vector, raising `InvalidLayoutError` (naming node and
operand) at the first strategy whose layout fails validation against its
tensor operand, with that strategy already committed; consequently whenever
the call returns normally, no strategy in the returned vector has an invalid
layout on a tensor operand. -/
theorem C1_register_strategy_validation (oracle : Oracle) (preds : List PredNode)
    (nodeName : String) (pp : ShardingStrategy → PostResult)
    (gens : List (List ShardingStrategy)) (compute : Bool)
    (sv0 sv : List ShardingStrategy)
    (h : (register_strategy oracle preds nodeName pp gens compute sv0).2 = .ok sv) :
    ∀ s ∈ sv, ∀ od sp, (od, sp) ∈ s.shardingSpecs →
      ∀ shape, od.data = OpData.tensor shape →
        check_sharding_spec_validity sp shape = true := by
  rcases register_strategy_ok_elim h with ⟨_, hv, _⟩
  intro s hs od sp hmem shape hdata
  exact validateSpecs_ok_of (validateVector_ok_of hv s hs) od sp hmem shape hdata

theorem C1_witness : check_sharding_spec_validity specDim1 [3, 8] = true :=
  C1_register_strategy_validation oracle0 [] "n" PostResult.single [[sGood]] false [] [sGood]
    rfl sGood (by decide) odX38 specDim1 (by decide) [3, 8] rfl

/-- C2: for every strategy produced by a successful `update_resharding_cost`
and every predecessor `P` (predecessor names distinct, as Python dict keys
are distinct nodes) whose StrategiesVector is populated, the stored cost
vector for `P` has exactly one entry per candidate of `P`, and entry `i` is
the oracle's cost triple for (layout of `P`'s candidate `i` for the shared
operand, the strategy's own layout for that operand). -/
theorem C2_resharding_vector_alignment (oracle : Oracle) (preds : List PredNode)
    (S S' : ShardingStrategy) (P : PredNode) (prevs : List ShardingStrategy)
    (h : update_resharding_cost oracle preds S = .ok S')
    (hnd : (preds.map PredNode.name).Nodup)
    (hP : P ∈ preds) (hsv : P.strategiesVector = some prevs) :
    ∃ cs, costsFor S' P.name = some cs ∧ cs.length = prevs.length ∧
      ∃ od cur, get_op_data_by_name S P.name = some od ∧
        dictLookup S.shardingSpecs od = some cur ∧
        ∀ i, i < prevs.length →
          ∃ pv, get_sharding_spec_by_name (prevs.getD i dfltStrategy) P.name = some pv ∧
            cs.getD i dfltItem = mkItem (oracle pv cur) := by
  rcases update_costsFor_spec oracle preds S S' P prevs h hnd hP hsv with
    ⟨cs, od, cur, h1, h2, h3, h4, h5⟩
  exact ⟨cs, h1, h4, od, cur, h2, h3, h5⟩

theorem C2_witness :
    ∃ cs, costsFor strategySRes predP.name = some cs ∧
      cs.length = ([prevStrat] : List ShardingStrategy).length ∧
      ∃ od cur, get_op_data_by_name strategyS predP.name = some od ∧
        dictLookup strategyS.shardingSpecs od = some cur ∧
        ∀ i, i < ([prevStrat] : List ShardingStrategy).length →
          ∃ pv, get_sharding_spec_by_name
              (([prevStrat] : List ShardingStrategy).getD i dfltStrategy) predP.name = some pv ∧
            cs.getD i dfltItem = mkItem (oracle123 pv cur) :=
  C2_resharding_vector_alignment oracle123 [predP] strategyS strategySRes predP [prevStrat]
    rfl (by decide) (by decide) rfl

/-- C3, counterexample to the claim as stated: a predecessor whose
`strategies_vector` attribute exists but is empty (present yet unpopulated)
does not raise any error: `update_resharding_cost` silently produces an empty
cost vector for it. -/
theorem C3_counterexample :
    update_resharding_cost oracle0 [predEmpty] strategyS =
      .ok { shardingSpecs := [(odP88, specDim1)], reshardingCosts := some [("p", [])] } ∧
    costsFor { shardingSpecs := [(odP88, specDim1)],
               reshardingCosts := some [("p", [])] } "p" = some [] :=
  ⟨rfl, rfl⟩

/-- C3 (amended): `update_resharding_cost` checks only that each predecessor
has a `strategies_vector` attribute at all (`hasattr`), not that it is
populated: success implies every predecessor has the attribute, and a first
predecessor lacking it deterministically fails with an error identifying that
predecessor; a present-but-empty vector passes silently. -/
theorem C3_ordering_check (oracle : Oracle) (preds : List PredNode) (S : ShardingStrategy) :
    (∀ S', update_resharding_cost oracle preds S = .ok S' →
      ∀ P ∈ preds, P.strategiesVector ≠ none) ∧
    (∀ P rest, preds = P :: rest → P.strategiesVector = none →
      update_resharding_cost oracle preds S = .error (.orderingError P.name)) := by
  constructor
  · intro S' h P hP
    rcases update_resharding_cost_ok h with ⟨entries, hm, _⟩
    rcases exceptMapM_ok_of_mem hm P hP with ⟨r, hr⟩
    rcases processPred_ok hr with ⟨prevs, _, _, _, hsv, _⟩
    intro hnone
    rw [hnone] at hsv
    exact Option.noConfusion hsv
  · intro P rest hpreds hnone
    subst hpreds
    have hp : processPred oracle S P = .error (.orderingError P.name) := by
      unfold processPred
      rw [hnone]
    have hm' : exceptMapM (processPred oracle S) (P :: rest) =
        .error (.orderingError P.name) := by
      unfold exceptMapM
      rw [hp]
    unfold update_resharding_cost
    rw [hm']

theorem C3_witness :
    update_resharding_cost oracle0 [predMissing] strategyS =
      .error (.orderingError "q") :=
  (C3_ordering_check oracle0 [predMissing] strategyS).2 predMissing [] rfl rfl

/-- C4: `register_strategy` commits candidates in exactly generator order,
then within-generator order, then post-process fan-out order; with the
resharding flag off the committed vector is literally the flattened candidate
sequence, and with it on each committed entry is the resharding-annotated
image of the flattened candidate at the same index (none reordered,
duplicated or dropped). -/
theorem C4_commit_order (oracle : Oracle) (preds : List PredNode) (nodeName : String)
    (pp : ShardingStrategy → PostResult) (gens : List (List ShardingStrategy))
    (sv0 : List ShardingStrategy) :
    ((register_strategy oracle preds nodeName pp gens false sv0).1 =
        sv0 ++ gens.flatMap (flattenCandidates pp)) ∧
    (∀ sv, (register_strategy oracle preds nodeName pp gens true sv0).2 = .ok sv →
      ∃ u, sv = sv0 ++ u ∧
        u.length = (gens.flatMap (flattenCandidates pp)).length ∧
        ∀ i, i < u.length →
          update_resharding_cost oracle preds
              ((gens.flatMap (flattenCandidates pp)).getD i dfltStrategy)
            = .ok (u.getD i dfltStrategy)) := by
  constructor
  · rw [register_strategy_fst, registerLoop_false]
  · intro sv h
    rcases register_strategy_ok_elim h with ⟨hl, _, _⟩
    rcases registerLoop_true_ok hl with ⟨u, hu, hsv⟩
    refine ⟨u, hsv, exceptMapM_ok_length hu, ?_⟩
    intro i hi
    have hi' : i < (gens.flatMap (flattenCandidates pp)).length := by
      rw [← exceptMapM_ok_length hu]; exact hi
    exact exceptMapM_ok_getD hu dfltStrategy dfltStrategy i hi'

theorem C4_witness :
    ∃ u, [strategySRes] = [] ++ u ∧
      u.length = ([[strategyS]].flatMap (flattenCandidates PostResult.single)).length ∧
      ∀ i, i < u.length →
        update_resharding_cost oracle123 [predP]
            (([[strategyS]].flatMap (flattenCandidates PostResult.single)).getD i dfltStrategy)
          = .ok (u.getD i dfltStrategy) :=
  (C4_commit_order oracle123 [predP] "n" PostResult.single [[strategyS]] []).2
    [strategySRes] rfl

/-- C5, counterexample to the claim as stated: an oracle returning a negative
cost triple is not rejected; the negative values are stored verbatim into the
strategy's resharding costs with no `ConfigurationError`. -/
theorem C5_counterexample :
    update_resharding_cost oracleNeg [predP] strategyS =
      .ok { shardingSpecs := [(odP88, specDim1)],
            reshardingCosts := some [("p", [{ fwd := -5, bwd := -3, total := -8 }])] } :=
  rfl

/-- C5 (amended): the planner performs no finiteness or non-negativity
assertion on the oracle's result — whatever triple the oracle returns is
stored; the only errors `update_resharding_cost` can raise are the ordering
(`hasattr`) assertion and name-lookup failures, never a `ConfigurationError`
about the oracle's values. -/
theorem C5_no_oracle_assertion {oracle : Oracle} {preds : List PredNode}
    {S : ShardingStrategy} {e : PlanErr}
    (h : update_resharding_cost oracle preds S = .error e) :
    (∃ n, e = .orderingError n) ∨ (∃ n, e = .lookupError n) := by
  rcases exceptMapM_error_of_mem (update_resharding_cost_error h) with ⟨p, _, hp⟩
  exact processPred_error hp

theorem C5_witness :
    (∃ n, PlanErr.orderingError "q" = PlanErr.orderingError n) ∨
    (∃ n, PlanErr.orderingError "q" = PlanErr.lookupError n) :=
  @C5_no_oracle_assertion oracle0 [predMissing] strategyS (PlanErr.orderingError "q") rfl

/-- C6: every `TrainCycleItem` stored by `update_resharding_cost` carries the
oracle dictionary's forward, backward and total values verbatim — the total
is propagated, never recomputed from forward and backward. -/
theorem C6_cost_triple_verbatim (oracle : Oracle) (preds : List PredNode)
    (S S' : ShardingStrategy) (P : PredNode) (prevs : List ShardingStrategy)
    (h : update_resharding_cost oracle preds S = .ok S')
    (hnd : (preds.map PredNode.name).Nodup)
    (hP : P ∈ preds) (hsv : P.strategiesVector = some prevs) :
    ∃ cs od cur, costsFor S' P.name = some cs ∧
      get_op_data_by_name S P.name = some od ∧
      dictLookup S.shardingSpecs od = some cur ∧
      ∀ i, i < prevs.length →
        ∃ pv, get_sharding_spec_by_name (prevs.getD i dfltStrategy) P.name = some pv ∧
          (cs.getD i dfltItem).fwd = (oracle pv cur).forward ∧
          (cs.getD i dfltItem).bwd = (oracle pv cur).backward ∧
          (cs.getD i dfltItem).total = (oracle pv cur).total := by
  rcases update_costsFor_spec oracle preds S S' P prevs h hnd hP hsv with
    ⟨cs, od, cur, h1, h2, h3, _, h5⟩
  refine ⟨cs, od, cur, h1, h2, h3, ?_⟩
  intro i hi
  rcases h5 i hi with ⟨pv, hpv, heq⟩
  exact ⟨pv, hpv, by rw [heq]; rfl, by rw [heq]; rfl, by rw [heq]; rfl⟩

theorem C6_witness :
    ∃ cs od cur, costsFor strategySResOdd predP.name = some cs ∧
      get_op_data_by_name strategyS predP.name = some od ∧
      dictLookup strategyS.shardingSpecs od = some cur ∧
      ∀ i, i < ([prevStrat] : List ShardingStrategy).length →
        ∃ pv, get_sharding_spec_by_name
            (([prevStrat] : List ShardingStrategy).getD i dfltStrategy) predP.name = some pv ∧
          (cs.getD i dfltItem).fwd = (oracleOdd pv cur).forward ∧
          (cs.getD i dfltItem).bwd = (oracleOdd pv cur).backward ∧
          (cs.getD i dfltItem).total = (oracleOdd pv cur).total :=
  C6_cost_triple_verbatim oracleOdd [predP] strategyS strategySResOdd predP [prevStrat]
    rfl (by decide) (by decide) rfl

/-- C7: `ModuleHandler.__init__` fails when the graph has no owning module or
the node's target does not resolve to a submodule, and on success captures
the resolved module together with its non-recursive parameter and buffer
maps. -/
theorem C7_module_handler_init (node : FxNode) :
    (node.graph.owningModule = none →
      ModuleHandler_init node =
        .error (.configurationError "The graph is not associated with a module")) ∧
    (∀ om, node.graph.owningModule = some om → get_submodule om node.target = none →
      ModuleHandler_init node =
        .error (.configurationError "node target does not resolve to a submodule")) ∧
    (∀ om m, node.graph.owningModule = some om → get_submodule om node.target = some m →
      ModuleHandler_init node =
        .ok { module := m, named_parameters := m.params, named_buffers := m.buffers }) := by
  refine ⟨?_, ?_, ?_⟩
  · intro h
    simp [ModuleHandler_init, h]
  · intro om h1 h2
    simp [ModuleHandler_init, h1, h2]
  · intro om m h1 h2
    simp [ModuleHandler_init, h1, h2]

theorem C7_witness :
    ModuleHandler_init nodeFc =
      .ok { module := linearMod, named_parameters := linearMod.params,
            named_buffers := linearMod.buffers } :=
  (C7_module_handler_init nodeFc).2.2 owningM linearMod rfl rfl

/-- C8: the strategies vector is append-only across `register_strategy`: the
final vector extends the initial one, and the value returned on success is
that same vector. -/
theorem C8_append_only (oracle : Oracle) (preds : List PredNode) (nodeName : String)
    (pp : ShardingStrategy → PostResult) (gens : List (List ShardingStrategy))
    (compute : Bool) (sv0 : List ShardingStrategy) :
    (∃ t, (register_strategy oracle preds nodeName pp gens compute sv0).1 = sv0 ++ t) ∧
    (∀ sv, (register_strategy oracle preds nodeName pp gens compute sv0).2 = .ok sv →
      sv = (register_strategy oracle preds nodeName pp gens compute sv0).1) := by
  constructor
  · rw [register_strategy_fst]
    cases hl : registerLoop oracle preds pp compute sv0 gens with
    | mk sv1 r =>
      rcases registerLoop_prefix hl with ⟨t, ht⟩
      exact ⟨t, ht⟩
  · intro sv h
    exact (register_strategy_ok_elim h).2.2.symm

theorem C8_witness :
    ([sGood] : List ShardingStrategy) =
      (register_strategy oracle0 [] "n" PostResult.single [[sGood]] false []).1 :=
  (C8_append_only oracle0 [] "n" PostResult.single [[sGood]] false []).2 [sGood] rfl

/-- C9: with `compute_resharding_cost = false` the whole run is independent
of the oracle and of the predecessors (neither `update_resharding_cost` nor
the oracle is ever consulted) and commits the generator outputs verbatim
(resharding-cost fields untouched); with the flag `true`, every committed
candidate has its resharding costs set. -/
theorem C9_resharding_flag (oracle : Oracle) (preds : List PredNode) (nodeName : String)
    (pp : ShardingStrategy → PostResult) (gens : List (List ShardingStrategy))
    (sv0 : List ShardingStrategy) :
    (∀ (oracle2 : Oracle) (preds2 : List PredNode),
      register_strategy oracle preds nodeName pp gens false sv0 =
        register_strategy oracle2 preds2 nodeName pp gens false sv0) ∧
    ((register_strategy oracle preds nodeName pp gens false sv0).1 =
      sv0 ++ gens.flatMap (flattenCandidates pp)) ∧
    (∀ sv, (register_strategy oracle preds nodeName pp gens true sv0).2 = .ok sv →
      ∀ s ∈ sv.drop sv0.length, s.reshardingCosts.isSome = true) := by
  refine ⟨?_, ?_, ?_⟩
  · intro oracle2 preds2
    unfold register_strategy
    rw [registerLoop_false oracle preds pp, registerLoop_false oracle2 preds2 pp]
  · rw [register_strategy_fst, registerLoop_false]
  · intro sv h s hs
    rcases register_strategy_ok_elim h with ⟨hl, _, _⟩
    rcases registerLoop_true_ok hl with ⟨u, hu, rfl⟩
    rw [List.drop_left] at hs
    rcases exceptMapM_mem_of_ok hu s hs with ⟨a, _, ha⟩
    rcases update_resharding_cost_ok ha with ⟨entries, _, rfl⟩
    rfl

theorem C9_witness : strategySRes.reshardingCosts.isSome = true :=
  (C9_resharding_flag oracle123 [predP] "n" PostResult.single [[strategyS]] []).2.2
    [strategySRes] rfl strategySRes (by decide)

/-- C10: validation is applied only to operands whose attached data is a
concrete tensor; strategies whose non-tensor or absent-data operands carry
arbitrary (even invalid) layouts are committed unchecked, and the run
succeeds as long as every tensor-operand layout is valid. -/
theorem C10_nontensor_unchecked (oracle : Oracle) (preds : List PredNode)
    (nodeName : String) (pp : ShardingStrategy → PostResult)
    (gens : List (List ShardingStrategy)) (sv0 : List ShardingStrategy)
    (h : ∀ s ∈ sv0 ++ gens.flatMap (flattenCandidates pp), ∀ od sp,
        (od, sp) ∈ s.shardingSpecs → ∀ shape, od.data = OpData.tensor shape →
          check_sharding_spec_validity sp shape = true) :
    (register_strategy oracle preds nodeName pp gens false sv0).2 =
      .ok (sv0 ++ gens.flatMap (flattenCandidates pp)) := by
  have hv : validateVector nodeName (sv0 ++ gens.flatMap (flattenCandidates pp)) = .ok () :=
    validateVector_ok_mp (fun s hs => validateSpecs_ok_mp (h s hs))
  unfold register_strategy
  rw [registerLoop_false]
  simp [hv]

theorem C10_witness :
    (register_strategy oracle0 [] "n" PostResult.single [[sUnchecked]] false []).2 =
      .ok ([] ++ [[sUnchecked]].flatMap (flattenCandidates PostResult.single)) :=
  C10_nontensor_unchecked oracle0 [] "n" PostResult.single [[sUnchecked]] []
    (by
      intro s hs od sp hmem shape hdata
      have hs' : s ∈ ([sUnchecked] : List ShardingStrategy) := hs
      have hseq : s = sUnchecked := by simpa using hs'
      subst hseq
      have hmem' : od = odAbs ∧ sp = specInvalid := by
        simpa [sUnchecked] using hmem
      rw [hmem'.1] at hdata
      exact OpData.noConfusion hdata)

end NodeHandlerModel
